import Mathlib

/-!
Verification of the streaming-bridge core of `src/lib/hackrf/hackrf_sink_c.cc`
(gr-osmosdr HackRF sink): the sample converter, the bounded circular buffer,
and the producer/consumer bridge (`work`, the TX callback, `start`, `stop`).

Modelling conventions:
* Sample values (32-bit floats in the C source) are modelled as rationals `ℚ`.
  The scaling multiplication `x * 127.0f` is modelled as exact rational
  multiplication; at every concrete input used below the IEEE single-precision
  product is exact (the significand fits in 24 bits), so the model agrees with
  the machine there.  The float-to-integer conversions are modelled exactly:
  the C cast `(int8_t)(f)` truncates toward zero, and `_mm_cvtps_epi32` /
  `_mm256_cvtps_epi32` round to nearest with ties to even (the default MXCSR
  rounding mode).
* Bytes are modelled as `ℤ` values; all stored bytes proved about lie in
  `[-127, 127]`, inside the `int8_t` range, so no wrapping occurs.
* The circular buffer is modelled at slot granularity: the byte pointers
  `head`/`tail` advancing by `sz` and wrapping at `buffer_end` become slot
  indices advancing by 1 and wrapping at `capacity`.
* Locks, condition-variable waits and the hardware are not modelled; the
  functions model the sequential effect of each operation's body, and each
  theorem carries the wait-loop's postcondition (e.g. `cb_has_room`) as an
  explicit hypothesis where the source established it by waiting.
-/

namespace HackrfSink

/-! ### Sample conversion -/

/-- Round-toward-zero conversion of a rational to an integer: the semantics of
the C float-to-integer cast in `convert_default` (`outbuf[i] = inbuf[i]*127`).
For negative arguments truncation toward zero is the ceiling, written here as
`-⌊-q⌋`. -/
def qtrunc (q : ℚ) : ℤ :=
  if 0 ≤ q then ⌊q⌋ else -⌊-q⌋

/-- Round-to-nearest, ties-to-even conversion of a rational to an integer: the
semantics of `_mm_cvtps_epi32` / `_mm256_cvtps_epi32` under the default MXCSR
rounding mode, used by `convert_sse2` and `convert_avx`. -/
def roundEven (q : ℚ) : ℤ :=
  if q - ⌊q⌋ < 1/2 then ⌊q⌋
  else if (1:ℚ)/2 < q - ⌊q⌋ then ⌊q⌋ + 1
  else if 2 ∣ ⌊q⌋ then ⌊q⌋ else ⌊q⌋ + 1

/-- Signed saturation to `[lo, hi]`, the semantics of the SSE pack
instructions (`_mm_packs_epi32` saturates to 16 bits, `_mm_packs_epi16`
to 8 bits). -/
def sat (lo hi z : ℤ) : ℤ := max lo (min hi z)

/-- Per-element effect of the vectorized conversion paths: multiply by 127,
convert with round-to-nearest-even (`cvtps_epi32`), saturate-pack through
16 bits (`packs_epi32`) and then 8 bits (`packs_epi16`).  The lane
extraction/packing in `convert_avx`/`convert_sse2` preserves element order,
so both vector paths act elementwise by this function. -/
def vecElem (x : ℚ) : ℤ := sat (-128) 127 (sat (-32768) 32767 (roundEven (x * 127)))

/-- Per-element effect of the scalar path `convert_default`:
`outbuf[i] = inbuf[i]*127`, i.e. multiply by 127 and truncate toward zero. -/
def defaultElem (x : ℚ) : ℤ := qtrunc (x * 127)

/-- Model of `convert_default(inbuf, outbuf, count)`: converts `count` floats
elementwise (the model carries the floats as a list). -/
def convert_default (l : List ℚ) : List ℤ := l.map defaultElem

/-- Model of `convert_avx(inbuf, outbuf, count)`: processes `count` blocks of
16 consecutive floats; each float is independently scaled, rounded and
saturate-packed, and the pack/extract shuffles keep the elements in order, so
on a list of `16 * count` floats the function is the elementwise map. -/
def convert_avx (l : List ℚ) : List ℤ := l.map vecElem

/-- Model of `convert_sse2(inbuf, outbuf, count)`: identical per-element
semantics to `convert_avx` (same multiply, same `cvtps_epi32` rounding, same
saturating packs), processing 16 floats per iteration in four lanes of 4. -/
def convert_sse2 (l : List ℚ) : List ℤ := l.map vecElem

/-- Interleaved view of a complex sample stream: `gr_complex` values are laid
out in memory as real, imaginary, real, imaginary, ... 32-bit floats; `work`
casts the `gr_complex*` input to `float*` before converting. -/
def interleave (l : List (ℚ × ℚ)) : List ℚ :=
  l.flatMap (fun p => [p.1, p.2])

/-! ### Bounded circular buffer (`circular_buffer_t` and the `cb_` helpers) -/

/-- Model of `circular_buffer_t`.  The byte storage of `capacity * sz` bytes
is modelled as `capacity` slots of (up to) `sz` bytes; the byte pointers
`head` and `tail` (which advance by `sz` and wrap at `buffer_end`) become slot
indices that advance by 1 and wrap at `capacity`. -/
structure circular_buffer_t where
  buffer : List (List ℤ)
  capacity : ℕ
  count : ℕ
  sz : ℕ
  head : ℕ
  tail : ℕ
deriving Repr, DecidableEq

/-- Model of `cb_init(cb, capacity, sz)`: fresh storage (malloc contents are
indeterminate; the model uses empty slots), zero count, head and tail at the
start of the storage.  Allocation failure is not modelled. -/
def cb_init (capacity sz : ℕ) : circular_buffer_t :=
  { buffer := List.replicate capacity []
    capacity := capacity
    count := 0
    sz := sz
    head := 0
    tail := 0 }

/-- Model of `cb_has_room`: false iff `count == capacity`. -/
def cb_has_room (cb : circular_buffer_t) : Bool :=
  cb.count != cb.capacity

/-- Model of `cb_is_empty`: true iff `count == 0`. -/
def cb_is_empty (cb : circular_buffer_t) : Bool :=
  cb.count == 0

/-- Model of `cb_push_back(cb, item)`: if full, return `false` with the buffer
unchanged; otherwise `memcpy` `sz` bytes of `item` into the slot at `head`,
advance `head` with wrap-around, and increment `count`. -/
def cb_push_back (cb : circular_buffer_t) (item : List ℤ) : Bool × circular_buffer_t :=
  if cb.count = cb.capacity then (false, cb)
  else
    (true,
      { cb with
        buffer := cb.buffer.set cb.head (item.take cb.sz)
        head := if cb.head + 1 = cb.capacity then 0 else cb.head + 1
        count := cb.count + 1 })

/-- Model of `cb_pop_front(cb, item)`: if empty, return `false` with buffer and
destination unchanged; otherwise `memcpy` the `sz` bytes of the slot at `tail`
into the destination, advance `tail` with wrap-around, decrement `count`. -/
def cb_pop_front (cb : circular_buffer_t) (dest : List ℤ) :
    Bool × circular_buffer_t × List ℤ :=
  if cb.count = 0 then (false, cb, dest)
  else
    (true,
      { cb with
        tail := if cb.tail + 1 = cb.capacity then 0 else cb.tail + 1
        count := cb.count - 1 },
      cb.buffer.getD cb.tail [] ++ dest.drop cb.sz)

/-- The queue abstraction of the circular buffer: the `count` stored slots in
FIFO order, starting at `tail`. -/
def cb_contents (cb : circular_buffer_t) : List (List ℤ) :=
  (List.range cb.count).map (fun i => cb.buffer.getD ((cb.tail + i) % cb.capacity) [])

/-- Structural well-formedness of a circular buffer state, maintained by
`cb_init`, `cb_push_back` and `cb_pop_front`. -/
def cb_wf (cb : circular_buffer_t) : Prop :=
  0 < cb.capacity ∧
  cb.buffer.length = cb.capacity ∧
  cb.head < cb.capacity ∧
  cb.tail < cb.capacity ∧
  cb.count ≤ cb.capacity ∧
  cb.head = (cb.tail + cb.count) % cb.capacity

instance (cb : circular_buffer_t) : Decidable (cb_wf cb) := by
  unfold cb_wf; infer_instance

/-- Repeatedly pop the circular buffer until it reports empty, collecting the
popped slots in order (fuelled by `count`, which each successful pop
decrements). -/
def cb_drainAux : ℕ → circular_buffer_t → List (List ℤ)
  | 0, _ => []
  | fuel + 1, cb =>
    let r := cb_pop_front cb []
    if r.1 then r.2.2 :: cb_drainAux fuel r.2.1 else []

/-- All slots obtained by popping the buffer until empty, in pop order. -/
def cb_drain (cb : circular_buffer_t) : List (List ℤ) :=
  cb_drainAux cb.count cb

/-! ### Bridge state and operations (`hackrf_sink_c`) -/

/-- The mutable bridge state of `hackrf_sink_c` relevant to the streaming
core: the ring buffer `_cbuf`, the staging buffer `_buf` (a block of
`BUF_LEN` bytes), the staging fill counter `_buf_used`, and the shutdown flag
`_stopping`.  The per-buffer length `BUF_LEN` is a compile-time constant from
the header (not in the translation unit under verification) and is carried as
an explicit parameter of the operations. -/
structure BridgeState where
  cbuf : circular_buffer_t
  buf : List ℤ
  buf_used : ℕ
  stopping : Bool
deriving Repr, DecidableEq

/-- Model of `hackrf_sink_c::work(noutput_items, input_items, ...)`.  The
input batch is the list of complex samples offered by the scheduler
(`noutput_items = input.length`).  The leading wait-for-room loop is not part
of the function body here; theorems that rely on it carry its postcondition
`cb_has_room` as a hypothesis.  The conversion is the portable
`convert_default` path (the `#else` branch); the AVX/SSE2 branches consume
the same count (`sse_rem*8 + nosse_rem = count`) and write the same byte
positions.  Returns `(items_consumed, new state)`; the block's return value
to the scheduler is always 0 (it is a sink), `items_consumed` being reported
via `consume_each`. -/
def work (BUF_LEN : ℕ) (st : BridgeState) (input : List (ℚ × ℚ)) :
    ℕ × BridgeState :=
  let remaining := (BUF_LEN - st.buf_used) / 2
  let count := min input.length remaining
  let converted := convert_default (interleave (input.take count))
  let buf1 := st.buf.take st.buf_used ++ converted ++ st.buf.drop (st.buf_used + 2 * count)
  if remaining ≤ input.length then
    let r := cb_push_back st.cbuf buf1
    if r.1 then
      (count, { st with cbuf := r.2, buf := buf1, buf_used := 0 })
    else
      (0, { st with cbuf := r.2, buf := buf1, buf_used := st.buf_used })
  else
    (count, { st with buf := buf1, buf_used := st.buf_used + 2 * count })

/-- Result of one invocation of the TX callback: the bytes left in the
transfer buffer, the status returned to libhackrf (0 = continue, -1 = stop),
the new bridge state, whether the underrun diagnostic (`"U"`) was emitted,
and whether the condition variable was notified. -/
structure CallbackResult where
  out : List ℤ
  ret : ℤ
  st : BridgeState
  underrun : Bool
  notified : Bool
deriving Repr

/-- Model of `hackrf_sink_c::hackrf_tx_callback(buffer, length)`: pop the
oldest ring slot into the transfer buffer; on failure zero the first `length`
bytes, then either (stopping) notify the waiter and return -1, or (not
stopping) emit the underrun diagnostic and return 0; on success notify the
waiter and return 0. -/
def hackrf_tx_callback (st : BridgeState) (buffer : List ℤ) (length : ℕ) :
    CallbackResult :=
  let r := cb_pop_front st.cbuf buffer
  if r.1 then
    { out := r.2.2, ret := 0, st := { st with cbuf := r.2.1 },
      underrun := false, notified := true }
  else
    let silent := List.replicate length 0 ++ buffer.drop length
    if st.stopping then
      { out := silent, ret := -1, st := st, underrun := false, notified := true }
    else
      { out := silent, ret := 0, st := st, underrun := true, notified := false }

/-- Model of `hackrf_sink_c::start()`: fails (returns `none`, no state
change) without a device handle; otherwise clears `_stopping`, resets
`_buf_used` and asks the facade to start TX streaming (the device calls
themselves are outside the verified core). -/
def start (hasDev : Bool) (st : BridgeState) : Option BridgeState :=
  if hasDev then some { st with stopping := false, buf_used := 0 } else none

/-- Push the all-silence staging buffer `n` times, ignoring the push results
exactly as the loop in `stop()` does (each iteration's wait-for-room loop is
reflected by the room hypotheses of the theorems). -/
def pushN (cb : circular_buffer_t) (item : List ℤ) : ℕ → circular_buffer_t
  | 0 => cb
  | n + 1 => pushN (cb_push_back cb item).2 item n

/-- The bridge state produced by the locked body of `hackrf_sink_c::stop()`:
the staging buffer is zero-padded to `BUF_LEN` bytes and pushed, `_buf_used`
is reset to 0, the staging buffer is zeroed (`memset`) and pushed 5 more
times as trailing silence, and `_stopping` is raised.  The waits (for room,
and for the hardware to stop streaming) are synchronization with the
unmodelled callback thread; each theorem's room hypothesis plays the role of
the wait postconditions. -/
def stopBody (BUF_LEN : ℕ) (st : BridgeState) : BridgeState :=
  { cbuf := pushN
      (cb_push_back st.cbuf
        (st.buf.take st.buf_used ++ List.replicate (BUF_LEN - st.buf_used) 0)).2
      (List.replicate BUF_LEN 0) 5
    buf := List.replicate BUF_LEN 0
    buf_used := 0
    stopping := true }

/-- Model of `hackrf_sink_c::stop()`: fails (returns `none`, no state change)
without a device handle, otherwise performs `stopBody`; the final
`hackrf_stop_tx` facade call is outside the verified core. -/
def stop (BUF_LEN : ℕ) (hasDev : Bool) (st : BridgeState) : Option BridgeState :=
  if hasDev then some (stopBody BUF_LEN st) else none

/-- Drive `work` repeatedly, each call offering the not-yet-consumed suffix of
the sample stream and dropping what the call consumed — the dataflow
scheduler's behavior of re-offering unconsumed input.  Fuelled (the stream
length suffices as fuel, since every call on a nonempty stream with room and
a well-formed staging buffer consumes at least one sample). -/
def produceN (BUF_LEN : ℕ) : ℕ → BridgeState → List (ℚ × ℚ) → BridgeState
  | 0, st, _ => st
  | fuel + 1, st, input =>
    if input.isEmpty then st
    else
      let r := work BUF_LEN st input
      produceN BUF_LEN fuel r.2 (input.drop r.1)

/-- Feed an entire sample stream to the sink through repeated `work` calls. -/
def produceAll (BUF_LEN : ℕ) (st : BridgeState) (input : List (ℚ × ℚ)) :
    BridgeState :=
  produceN BUF_LEN input.length st input

/-- The converted bytes of the `i`-th full-buffer chunk of a sample stream. -/
def chunkBytes (BUF_LEN : ℕ) (input : List (ℚ × ℚ)) (i : ℕ) : List ℤ :=
  convert_default (interleave ((input.drop (i * (BUF_LEN / 2))).take (BUF_LEN / 2)))

/-- The staging-buffer invariant of the bridge (spec §3 "Bridge State"):
the fill counter stays strictly below the buffer capacity (resetting to 0 on
a push), is always a whole number of complex samples (2 bytes each), and the
staging buffer keeps its allocated size. -/
def BridgeInv (BUF_LEN : ℕ) (st : BridgeState) : Prop :=
  st.buf_used < BUF_LEN ∧ 2 ∣ st.buf_used ∧ st.buf.length = BUF_LEN

instance (BUF_LEN : ℕ) (st : BridgeState) : Decidable (BridgeInv BUF_LEN st) := by
  unfold BridgeInv; infer_instance

/-- The end-to-end test scenario of the spec: a sink constructed with
`buffers=4` and per-buffer length 1024 bytes, idle, with an empty staging
buffer. -/
def scenarioState : BridgeState :=
  { cbuf := cb_init 4 1024
    buf := List.replicate 1024 0
    buf_used := 0
    stopping := false }

/-- An arbitrary sequence of `work` calls: for each batch size in `ns`, offer
`work` the next (up to) `n` samples of the not-yet-consumed stream and drop
what the call consumed (the scheduler advances the stream by the reported
`consume_each` count, re-offering the rest later).  Returns the final bridge
state and the unconsumed suffix of the stream. -/
def runCalls (BUF_LEN : ℕ) : BridgeState → List (ℚ × ℚ) → List ℕ →
    BridgeState × List (ℚ × ℚ)
  | st, current, [] => (st, current)
  | st, current, n :: ns =>
    let r := work BUF_LEN st (current.take n)
    runCalls BUF_LEN r.2 (current.drop r.1) ns

/-- The production invariant: after the bridge has consumed the first `c`
samples of the stream `input` (in any number of calls of any batch sizes),
the ring has gained the `c / (BUF_LEN/2)` completed chunks in stream order
and the staging buffer holds the converted bytes of the current partial
chunk. -/
structure ProdInv (BUF_LEN : ℕ) (st0 : BridgeState) (input : List (ℚ × ℚ))
    (c : ℕ) (st : BridgeState) : Prop where
  wf : cb_wf st.cbuf
  cap : st.cbuf.capacity = st0.cbuf.capacity
  sz : st.cbuf.sz = BUF_LEN
  cnt : st.cbuf.count = st0.cbuf.count + c / (BUF_LEN / 2)
  used : st.buf_used = 2 * (c % (BUF_LEN / 2))
  blen : st.buf.length = BUF_LEN
  flag : st.stopping = st0.stopping
  staged : st.buf.take st.buf_used
    = convert_default (interleave
        ((input.drop (c / (BUF_LEN / 2) * (BUF_LEN / 2))).take (c % (BUF_LEN / 2))))
  contents : cb_contents st.cbuf
    = cb_contents st0.cbuf
      ++ (List.range (c / (BUF_LEN / 2))).map (chunkBytes BUF_LEN input)

/-! ### List and arithmetic helpers -/

theorem getD_set_ne {α : Type _} (a d : α) :
    ∀ (l : List α) (i j : ℕ), i ≠ j → (l.set i a).getD j d = l.getD j d := by
  intro l
  induction l with
  | nil => intro i j _; rfl
  | cons x xs ih =>
    intro i j hij
    cases i with
    | zero =>
      cases j with
      | zero => exact absurd rfl hij
      | succ k => rfl
    | succ m =>
      cases j with
      | zero => rfl
      | succ k => exact ih m k (fun h => hij (by rw [h]))

theorem getD_set_self {α : Type _} (a d : α) :
    ∀ (l : List α) (i : ℕ), i < l.length → (l.set i a).getD i d = a := by
  intro l
  induction l with
  | nil => intro i h; exact absurd h (by simp)
  | cons x xs ih =>
    intro i h
    cases i with
    | zero => rfl
    | succ m => exact ih m (Nat.lt_of_succ_lt_succ h)

theorem wrap_succ (i cap : ℕ) (h : i < cap) :
    (if i + 1 = cap then 0 else i + 1) = (i + 1) % cap := by
  by_cases hc : i + 1 = cap
  · rw [if_pos hc, hc, Nat.mod_self]
  · rw [if_neg hc, Nat.mod_eq_of_lt (lt_of_le_of_ne h hc)]

/-! ### Circular buffer lemmas -/

/-- Pushing onto a non-full well-formed buffer succeeds, preserves
well-formedness, capacity, slot size and tail, increments the count, and
appends the (`sz`-byte-truncated) item at the back of the FIFO contents. -/
theorem cb_push_back_spec (cb : circular_buffer_t) (item : List ℤ)
    (hwf : cb_wf cb) (hnf : cb.count < cb.capacity) :
    (cb_push_back cb item).1 = true ∧
    cb_wf (cb_push_back cb item).2 ∧
    (cb_push_back cb item).2.capacity = cb.capacity ∧
    (cb_push_back cb item).2.sz = cb.sz ∧
    (cb_push_back cb item).2.count = cb.count + 1 ∧
    (cb_push_back cb item).2.tail = cb.tail ∧
    cb_contents (cb_push_back cb item).2 = cb_contents cb ++ [item.take cb.sz] := by
  obtain ⟨hcap, hlen, hhead, htail, hcnt, heq⟩ := hwf
  have hne : cb.count ≠ cb.capacity := Nat.ne_of_lt hnf
  rw [cb_push_back, if_neg hne]
  refine ⟨rfl, ?_, rfl, rfl, rfl, rfl, ?_⟩
  · refine ⟨hcap, by simpa using hlen, ?_, htail, Nat.succ_le_of_lt hnf, ?_⟩
    · show (if cb.head + 1 = cb.capacity then 0 else cb.head + 1) < cb.capacity
      rw [wrap_succ cb.head cb.capacity hhead]
      exact Nat.mod_lt _ hcap
    · show (if cb.head + 1 = cb.capacity then 0 else cb.head + 1)
        = (cb.tail + (cb.count + 1)) % cb.capacity
      rw [wrap_succ cb.head cb.capacity hhead, heq, Nat.mod_add_mod,
        ← Nat.add_assoc]
  · show (List.range (cb.count + 1)).map
        (fun i => (cb.buffer.set cb.head (item.take cb.sz)).getD
          ((cb.tail + i) % cb.capacity) [])
      = cb_contents cb ++ [item.take cb.sz]
    rw [List.range_succ, List.map_append, List.map_singleton]
    congr 1
    · rw [cb_contents]
      apply List.map_congr_left
      intro i hi
      rw [List.mem_range] at hi
      apply getD_set_ne
      intro hcontra
      rw [heq] at hcontra
      have hi' : i % cb.capacity = cb.count % cb.capacity :=
        Nat.ModEq.add_left_cancel' cb.tail hcontra.symm
      rw [Nat.mod_eq_of_lt (lt_trans hi hnf), Nat.mod_eq_of_lt hnf] at hi'
      exact absurd hi' (Nat.ne_of_lt hi)
    · rw [← heq]
      rw [getD_set_self _ _ _ _ (by rw [hlen]; exact hhead)]

/-- Popping a nonempty well-formed buffer succeeds, preserves
well-formedness, capacity, slot size and head, decrements the count, copies
the oldest slot (followed by the untouched tail of the destination), and
removes exactly the front of the FIFO contents. -/
theorem cb_pop_front_spec (cb : circular_buffer_t) (dest : List ℤ)
    (hwf : cb_wf cb) (hnz : 0 < cb.count) :
    (cb_pop_front cb dest).1 = true ∧
    cb_wf (cb_pop_front cb dest).2.1 ∧
    (cb_pop_front cb dest).2.1.capacity = cb.capacity ∧
    (cb_pop_front cb dest).2.1.sz = cb.sz ∧
    (cb_pop_front cb dest).2.1.count = cb.count - 1 ∧
    (cb_pop_front cb dest).2.1.head = cb.head ∧
    (cb_pop_front cb dest).2.2 = cb.buffer.getD cb.tail [] ++ dest.drop cb.sz ∧
    cb_contents cb
      = cb.buffer.getD cb.tail [] :: cb_contents (cb_pop_front cb dest).2.1 := by
  obtain ⟨hcap, hlen, hhead, htail, hcnt, heq⟩ := hwf
  have hne : cb.count ≠ 0 := Nat.pos_iff_ne_zero.mp hnz
  rw [cb_pop_front, if_neg hne]
  have htail' : (if cb.tail + 1 = cb.capacity then 0 else cb.tail + 1)
      = (cb.tail + 1) % cb.capacity := wrap_succ cb.tail cb.capacity htail
  refine ⟨rfl, ?_, rfl, rfl, rfl, rfl, rfl, ?_⟩
  · refine ⟨hcap, hlen, hhead, ?_, Nat.le_trans (Nat.sub_le _ _) hcnt, ?_⟩
    · show (if cb.tail + 1 = cb.capacity then 0 else cb.tail + 1) < cb.capacity
      rw [htail']
      exact Nat.mod_lt _ hcap
    · show cb.head = ((if cb.tail + 1 = cb.capacity then 0 else cb.tail + 1)
        + (cb.count - 1)) % cb.capacity
      rw [htail', Nat.mod_add_mod, Nat.add_assoc,
        Nat.add_sub_cancel' (Nat.succ_le_of_lt hnz), heq]
  · rw [cb_contents, cb_contents]
    conv_lhs => rw [← Nat.succ_pred_eq_of_pos hnz]
    rw [List.range_succ_eq_map, List.map_cons, List.map_map]
    congr 1
    · rw [Nat.add_zero, Nat.mod_eq_of_lt htail]
    · apply List.map_congr_left
      intro i _
      show cb.buffer.getD ((cb.tail + (i + 1)) % cb.capacity) []
        = cb.buffer.getD
            (((if cb.tail + 1 = cb.capacity then 0 else cb.tail + 1) + i)
              % cb.capacity) []
      rw [htail', Nat.mod_add_mod, Nat.add_assoc, Nat.add_comm 1 i]

/-- Pushing the same item `n` times into a well-formed buffer with room for
all `n` appends `n` copies at the back of the FIFO contents. -/
theorem pushN_spec (item : List ℤ) :
    ∀ (n : ℕ) (cb : circular_buffer_t), cb_wf cb → cb.count + n ≤ cb.capacity →
    cb_wf (pushN cb item n) ∧
    (pushN cb item n).capacity = cb.capacity ∧
    (pushN cb item n).sz = cb.sz ∧
    (pushN cb item n).count = cb.count + n ∧
    cb_contents (pushN cb item n)
      = cb_contents cb ++ List.replicate n (item.take cb.sz) := by
  intro n
  induction n with
  | zero =>
    intro cb hwf _
    exact ⟨hwf, rfl, rfl, rfl, by simp [pushN]⟩
  | succ m ih =>
    intro cb hwf hroom
    have hnf : cb.count < cb.capacity := by omega
    obtain ⟨h1, h2, h3, h4, h5, h6, h7⟩ := cb_push_back_spec cb item hwf hnf
    have hroom' : (cb_push_back cb item).2.count + m
        ≤ (cb_push_back cb item).2.capacity := by
      rw [h5, h3]; omega
    obtain ⟨g1, g2, g3, g4, g5⟩ := ih (cb_push_back cb item).2 h2 hroom'
    rw [pushN]
    refine ⟨g1, by rw [g2, h3], by rw [g3, h4], by rw [g4, h5]; omega, ?_⟩
    rw [g5, h7, h4, List.append_assoc]
    rfl

/-- Draining a well-formed buffer by repeated pops returns exactly the FIFO
contents, oldest first. -/
theorem cb_drain_eq_contents (cb : circular_buffer_t) (hwf : cb_wf cb) :
    cb_drain cb = cb_contents cb := by
  rw [cb_drain]
  generalize hn : cb.count = n
  induction n generalizing cb with
  | zero =>
    rw [cb_drainAux, cb_contents, hn]
    rfl
  | succ m ih =>
    have hnz : 0 < cb.count := by omega
    obtain ⟨p1, p2, p3, p4, p5, p6, p7, p8⟩ := cb_pop_front_spec cb [] hwf hnz
    rw [cb_drainAux]
    simp only [p1, if_pos]
    rw [p7, p8]
    have hm : (cb_pop_front cb []).2.1.count = m := by omega
    rw [ih (cb_pop_front cb []).2.1 p2 hm]
    simp

/-- Pushing onto a full buffer fails and changes nothing (C boundary
behavior of `cb_push_back`). -/
theorem cb_push_back_full (cb : circular_buffer_t) (item : List ℤ)
    (h : cb.count = cb.capacity) : cb_push_back cb item = (false, cb) := by
  rw [cb_push_back, if_pos h]

/-- Popping an empty buffer fails and changes neither the buffer nor the
destination (C boundary behavior of `cb_pop_front`). -/
theorem cb_pop_front_empty (cb : circular_buffer_t) (dest : List ℤ)
    (h : cb.count = 0) : cb_pop_front cb dest = (false, cb, dest) := by
  rw [cb_pop_front, if_pos h]

/-! ### Conversion length lemmas -/

theorem interleave_length (l : List (ℚ × ℚ)) :
    (interleave l).length = 2 * l.length := by
  induction l with
  | nil => rfl
  | cons p rest ih => simp only [interleave, List.flatMap_cons] at ih ⊢; simp [ih]; omega

theorem convert_default_length (l : List ℚ) :
    (convert_default l).length = l.length := List.length_map l defaultElem

theorem interleave_append (l₁ l₂ : List (ℚ × ℚ)) :
    interleave (l₁ ++ l₂) = interleave l₁ ++ interleave l₂ := by
  simp [interleave]

/-! ### `work` characterization lemmas -/

/-- When the offered batch is smaller than the remaining staging room, `work`
consumes the whole batch into the staging buffer and does not touch the
ring. -/
theorem work_eq_no_push (BUF_LEN : ℕ) (st : BridgeState) (input : List (ℚ × ℚ))
    (h : input.length < (BUF_LEN - st.buf_used) / 2) :
    work BUF_LEN st input =
      (input.length,
       { st with
         buf := st.buf.take st.buf_used ++ convert_default (interleave input)
           ++ st.buf.drop (st.buf_used + 2 * input.length)
         buf_used := st.buf_used + 2 * input.length }) := by
  simp only [work, Nat.min_eq_left (Nat.le_of_lt h), if_neg (Nat.not_le.mpr h),
    List.take_length]

/-- When the offered batch is at least the remaining staging room and the ring
is not full, `work` consumes exactly the remaining room, completes the staging
buffer and pushes it. -/
theorem work_eq_push (BUF_LEN : ℕ) (st : BridgeState) (input : List (ℚ × ℚ))
    (h : (BUF_LEN - st.buf_used) / 2 ≤ input.length)
    (hroom : st.cbuf.count < st.cbuf.capacity) :
    work BUF_LEN st input =
      ((BUF_LEN - st.buf_used) / 2,
       { st with
         cbuf := (cb_push_back st.cbuf
           (st.buf.take st.buf_used
             ++ convert_default (interleave (input.take ((BUF_LEN - st.buf_used) / 2)))
             ++ st.buf.drop (st.buf_used + 2 * ((BUF_LEN - st.buf_used) / 2)))).2
         buf := st.buf.take st.buf_used
           ++ convert_default (interleave (input.take ((BUF_LEN - st.buf_used) / 2)))
           ++ st.buf.drop (st.buf_used + 2 * ((BUF_LEN - st.buf_used) / 2))
         buf_used := 0 }) := by
  have hp : ((cb_push_back st.cbuf
      (st.buf.take st.buf_used
        ++ convert_default (interleave (input.take ((BUF_LEN - st.buf_used) / 2)))
        ++ st.buf.drop (st.buf_used + 2 * ((BUF_LEN - st.buf_used) / 2))))).1 = true := by
    rw [cb_push_back, if_neg (Nat.ne_of_lt hroom)]
  simp only [work, Nat.min_eq_right h, if_pos h, hp, if_pos]

/-- When the offered batch triggers a push but the ring is full, `work`
consumes nothing: the fill counter is restored and the ring is untouched
(only bytes beyond the fill counter in the staging buffer were scribbled). -/
theorem work_eq_push_fail (BUF_LEN : ℕ) (st : BridgeState) (input : List (ℚ × ℚ))
    (h : (BUF_LEN - st.buf_used) / 2 ≤ input.length)
    (hfull : st.cbuf.count = st.cbuf.capacity) :
    work BUF_LEN st input =
      (0,
       { st with
         cbuf := st.cbuf
         buf := st.buf.take st.buf_used
           ++ convert_default (interleave (input.take ((BUF_LEN - st.buf_used) / 2)))
           ++ st.buf.drop (st.buf_used + 2 * ((BUF_LEN - st.buf_used) / 2))
         buf_used := st.buf_used }) := by
  simp only [work, Nat.min_eq_right h, if_pos h, cb_push_back_full _ _ hfull,
    Bool.false_eq_true, if_false]

/-- Feeding no samples leaves the bridge untouched, whatever the fuel. -/
theorem produceN_nil (BUF_LEN : ℕ) (fuel : ℕ) (st : BridgeState) :
    produceN BUF_LEN fuel st [] = st := by
  cases fuel <;> rfl

/-- Driving the producer over a stream of exactly `k` full buffers' worth of
samples (starting from an empty staging buffer, with room for `k` more ring
slots) pushes exactly `k` buffers, each byte-identical to the conversion of
its span of the stream, in stream order, and leaves the staging buffer
empty. -/
theorem produceN_chunks (BUF_LEN : ℕ) (h2 : 2 ∣ BUF_LEN) (hpos : 0 < BUF_LEN) :
    ∀ (k fuel : ℕ) (st : BridgeState) (input : List (ℚ × ℚ)),
    cb_wf st.cbuf → st.cbuf.sz = BUF_LEN → st.buf.length = BUF_LEN →
    st.buf_used = 0 →
    input.length = k * (BUF_LEN / 2) →
    st.cbuf.count + k ≤ st.cbuf.capacity →
    input.length ≤ fuel →
    cb_wf (produceN BUF_LEN fuel st input).cbuf ∧
    (produceN BUF_LEN fuel st input).cbuf.capacity = st.cbuf.capacity ∧
    (produceN BUF_LEN fuel st input).cbuf.sz = BUF_LEN ∧
    (produceN BUF_LEN fuel st input).cbuf.count = st.cbuf.count + k ∧
    (produceN BUF_LEN fuel st input).buf_used = 0 ∧
    (produceN BUF_LEN fuel st input).stopping = st.stopping ∧
    cb_contents (produceN BUF_LEN fuel st input).cbuf
      = cb_contents st.cbuf ++ (List.range k).map (chunkBytes BUF_LEN input) := by
  have hm : 0 < BUF_LEN / 2 := by omega
  intro k
  induction k with
  | zero =>
    intro fuel st input hwf hsz hblen hbu hlen hcap hfuel
    have : input = [] := List.eq_nil_of_length_eq_zero (by omega)
    subst this
    rw [produceN_nil]
    exact ⟨hwf, rfl, hsz, by omega, hbu, rfl, by simp⟩
  | succ k ih =>
    intro fuel st input hwf hsz hblen hbu hlen hcap hfuel
    have hlenpos : 0 < input.length := by
      rw [hlen, Nat.succ_mul]; omega
    obtain ⟨f, rfl⟩ : ∃ f, fuel = f + 1 := by
      cases fuel with
      | zero => omega
      | succ f => exact ⟨f, rfl⟩
    have hnonempty : input.isEmpty = false := by
      cases input with
      | nil => simp at hlenpos
      | cons a l => rfl
    have hge : (BUF_LEN - st.buf_used) / 2 ≤ input.length := by
      rw [hbu, hlen, Nat.succ_mul]; omega
    have hroom : st.cbuf.count < st.cbuf.capacity := by omega
    have hw := work_eq_push BUF_LEN st input hge hroom
    -- the completed staging buffer is exactly the converted first chunk
    have hrem : (BUF_LEN - st.buf_used) / 2 = BUF_LEN / 2 := by
      rw [hbu, Nat.sub_zero]
    have htake0 : st.buf.take st.buf_used = [] := by rw [hbu]; rfl
    have hdrop : st.buf.drop (st.buf_used + 2 * ((BUF_LEN - st.buf_used) / 2)) = [] := by
      apply List.drop_eq_nil_of_le
      rw [hblen, hrem, hbu]
      omega
    have hconvlen :
        (convert_default (interleave (input.take (BUF_LEN / 2)))).length = BUF_LEN := by
      rw [convert_default_length, interleave_length, List.length_take,
        Nat.min_eq_left (by omega), Nat.mul_div_cancel' h2]
    have hbuf1 : st.buf.take st.buf_used
        ++ convert_default (interleave (input.take ((BUF_LEN - st.buf_used) / 2)))
        ++ st.buf.drop (st.buf_used + 2 * ((BUF_LEN - st.buf_used) / 2))
        = convert_default (interleave (input.take (BUF_LEN / 2))) := by
      rw [htake0, hdrop, hrem, List.nil_append, List.append_nil]
    rw [hbuf1] at hw
    obtain ⟨p1, p2, p3, p4, p5, p6, p7⟩ :=
      cb_push_back_spec st.cbuf (convert_default (interleave (input.take (BUF_LEN / 2))))
        hwf hroom
    have hslot : (convert_default (interleave (input.take (BUF_LEN / 2)))).take st.cbuf.sz
        = convert_default (interleave (input.take (BUF_LEN / 2))) := by
      apply List.take_of_length_le
      rw [hconvlen, hsz]
    rw [hslot] at p7
    -- one unfolding step of the driver
    have hstep : produceN BUF_LEN (f + 1) st input
        = produceN BUF_LEN f (work BUF_LEN st input).2
            (input.drop (work BUF_LEN st input).1) := by
      rw [produceN, hnonempty]
      rfl
    rw [hstep, hw]
    have hdroplen : (input.drop ((BUF_LEN - st.buf_used) / 2)).length
        = k * (BUF_LEN / 2) := by
      rw [List.length_drop, hrem, hlen, Nat.succ_mul]
      omega
    obtain ⟨q1, q2, q3, q4, q5, q6, q7⟩ :=
      ih f
        { st with
          cbuf := (cb_push_back st.cbuf
            (convert_default (interleave (input.take (BUF_LEN / 2))))).2
          buf := convert_default (interleave (input.take (BUF_LEN / 2)))
          buf_used := 0 }
        (input.drop ((BUF_LEN - st.buf_used) / 2))
        p2 (by rw [p4, hsz]) hconvlen rfl hdroplen
        (by rw [p5, p3]; omega)
        (by
          rw [hdroplen]
          have h' : input.length = k * (BUF_LEN / 2) + BUF_LEN / 2 := by
            rw [hlen, Nat.succ_mul]
          omega)
    refine ⟨q1, by rw [q2, p3], q3, by rw [q4, p5]; omega, q5, q6, ?_⟩
    rw [q7, p7, List.append_assoc]
    congr 1
    rw [List.range_succ_eq_map, List.map_cons, List.map_map, List.singleton_append]
    congr 1
    · rw [chunkBytes, Nat.zero_mul, List.drop_zero]
    · apply List.map_congr_left
      intro i _
      show chunkBytes BUF_LEN (input.drop ((BUF_LEN - st.buf_used) / 2)) i
        = chunkBytes BUF_LEN input (i + 1)
      rw [chunkBytes, chunkBytes, hrem, List.drop_drop]
      congr 3
      rw [Nat.add_mul, Nat.one_mul, Nat.add_comm]

theorem take_min {α : Type _} (l : List α) (n : ℕ) :
    l.take n = l.take (min n l.length) := by
  by_cases h : n ≤ l.length
  · rw [Nat.min_eq_left h]
  · rw [Nat.min_eq_right (le_of_not_le h), List.take_length,
      List.take_of_length_le (le_of_not_le h)]

theorem convert_default_append (l₁ l₂ : List ℚ) :
    convert_default (l₁ ++ l₂) = convert_default l₁ ++ convert_default l₂ := by
  simp [convert_default]

/-- One `work` call of any batch size preserves the production invariant:
offered (up to) `n` samples at stream position `c`, it consumes exactly
`min (min n (input.length - c)) (BUF_LEN/2 - c % (BUF_LEN/2))` samples —
the offered batch capped by the staging buffer's remaining room — advancing
the invariant to the new stream position.  Room in the ring is only needed
when the batch completes the staging buffer. -/
theorem work_step_inv (BUF_LEN : ℕ) (h2 : 2 ∣ BUF_LEN) (hpos : 0 < BUF_LEN)
    (st0 : BridgeState) (input : List (ℚ × ℚ)) (c : ℕ) (st : BridgeState) (n : ℕ)
    (hinv : ProdInv BUF_LEN st0 input c st)
    (hc : c ≤ input.length)
    (hroom : BUF_LEN / 2 - c % (BUF_LEN / 2) ≤ min n (input.length - c) →
      st.cbuf.count < st.cbuf.capacity) :
    (work BUF_LEN st ((input.drop c).take n)).1
      = min (min n (input.length - c)) (BUF_LEN / 2 - c % (BUF_LEN / 2)) ∧
    ProdInv BUF_LEN st0 input
      (c + min (min n (input.length - c)) (BUF_LEN / 2 - c % (BUF_LEN / 2)))
      (work BUF_LEN st ((input.drop c).take n)).2 := by
  obtain ⟨hwf, hcap, hsz, hcnt, hused, hblen, hflag, hstaged, hcontents⟩ := hinv
  set m := BUF_LEN / 2 with hm
  have hBL : BUF_LEN = 2 * m := (Nat.mul_div_cancel' h2).symm
  have hmpos : 0 < m := by omega
  set q := c / m with hq
  set r := c % m with hr
  have heuclid : m * q + r = c := Nat.div_add_mod c m
  have hqm : q * m = m * q := Nat.mul_comm q m
  have hc' : c = q * m + r := by omega
  have hrm : r < m := Nat.mod_lt _ hmpos
  have ht : ((input.drop c).take n).length = min n (input.length - c) := by
    rw [List.length_take, List.length_drop]
  set t := min n (input.length - c) with htdef
  have hrem : (BUF_LEN - st.buf_used) / 2 = m - r := by
    rw [hused]; omega
  have hdd : (input.drop (q * m)).drop r = input.drop c := by
    rw [List.drop_drop]
    congr 1
    omega
  have hAlen : (st.buf.take st.buf_used).length = st.buf_used := by
    rw [List.length_take, hblen]
    omega
  by_cases hcase : m - r ≤ t
  · -- the batch completes the staging buffer: a push happens
    have hroom' : st.cbuf.count < st.cbuf.capacity := hroom hcase
    have hge : (BUF_LEN - st.buf_used) / 2 ≤ ((input.drop c).take n).length := by
      rw [hrem, ht]; exact hcase
    have hw := work_eq_push BUF_LEN st ((input.drop c).take n) hge hroom'
    rw [hrem] at hw
    have htake2 : ((input.drop c).take n).take (m - r) = (input.drop c).take (m - r) := by
      rw [List.take_take]
      congr 1
      omega
    have hdropnil : st.buf.drop (st.buf_used + 2 * (m - r)) = [] := by
      apply List.drop_eq_nil_of_le
      rw [hblen, hused]
      omega
    have hsplit : (input.drop (q * m)).take m
        = (input.drop (q * m)).take r ++ ((input.drop (q * m)).drop r).take (m - r) := by
      rw [← List.take_add]
      congr 1
      omega
    have hchunk : st.buf.take st.buf_used
        ++ convert_default (interleave ((input.drop c).take (m - r)))
        = chunkBytes BUF_LEN input q := by
      rw [hstaged, chunkBytes, ← hm, hsplit, hdd, interleave_append,
        convert_default_append]
    have hbuf1 : st.buf.take st.buf_used
        ++ convert_default (interleave (((input.drop c).take n).take (m - r)))
        ++ st.buf.drop (st.buf_used + 2 * (m - r))
        = chunkBytes BUF_LEN input q := by
      rw [htake2, hdropnil, List.append_nil, hchunk]
    rw [hbuf1] at hw
    have hclen : (chunkBytes BUF_LEN input q).length = BUF_LEN := by
      rw [chunkBytes, ← hm, convert_default_length, interleave_length,
        List.length_take, List.length_drop]
      have h1 : q * m + m ≤ input.length := by omega
      omega
    obtain ⟨p1, p2, p3, p4, p5, p6, p7⟩ :=
      cb_push_back_spec st.cbuf (chunkBytes BUF_LEN input q) hwf hroom'
    have hctake : (chunkBytes BUF_LEN input q).take st.cbuf.sz
        = chunkBytes BUF_LEN input q :=
      List.take_of_length_le (by rw [hclen, hsz])
    rw [hctake] at p7
    have hsm : (q + 1) * m = q * m + m := Nat.succ_mul q m
    have hcsum : c + (m - r) = (q + 1) * m := by omega
    have hdiv' : (c + (m - r)) / m = q + 1 := by
      rw [hcsum]; exact Nat.mul_div_cancel _ hmpos
    have hmod' : (c + (m - r)) % m = 0 := by
      rw [hcsum]; exact Nat.mul_mod_left _ _
    have hmin : min t (m - r) = m - r := Nat.min_eq_right hcase
    rw [hmin, hw]
    refine ⟨rfl, ?_, ?_, ?_, ?_, ?_, ?_, ?_, ?_, ?_⟩
    · exact p2
    · rw [p3]; exact hcap
    · rw [p4]; exact hsz
    · rw [p5, hcnt, hdiv']; omega
    · rw [hmod']
    · exact hclen
    · exact hflag
    · rw [hmod', hdiv']
      simp [convert_default, interleave]
    · rw [p7, hcontents, hdiv', List.range_succ, List.map_append,
        List.append_assoc]
      rfl
  · -- the batch fits in the staging buffer: no push
    have hlt : ((input.drop c).take n).length < (BUF_LEN - st.buf_used) / 2 := by
      rw [hrem, ht]; omega
    have hw := work_eq_no_push BUF_LEN st ((input.drop c).take n) hlt
    rw [ht] at hw
    have hrt : r + t < m := by omega
    have hcc : c + t = m * q + (r + t) := by omega
    have hdiv' : (c + t) / m = q := by
      rw [hcc, Nat.mul_add_div hmpos, Nat.div_eq_of_lt hrt, Nat.add_zero]
    have hmod' : (c + t) % m = r + t := by
      rw [hcc, Nat.mul_add_mod, Nat.mod_eq_of_lt hrt]
    have hconvlen :
        (convert_default (interleave ((input.drop c).take n))).length = 2 * t := by
      rw [convert_default_length, interleave_length, ht]
    have hbatch : (input.drop c).take n = (input.drop c).take t := by
      rw [take_min (input.drop c) n, List.length_drop, ← htdef]
    have hsplit2 : (input.drop (q * m)).take (r + t)
        = (input.drop (q * m)).take r ++ ((input.drop (q * m)).drop r).take t :=
      List.take_add _ r t
    have hmin : min t (m - r) = t := Nat.min_eq_left (by omega)
    rw [hmin, hw]
    refine ⟨rfl, ?_, hcap, hsz, ?_, ?_, ?_, hflag, ?_, ?_⟩
    · exact hwf
    · rw [hcnt, hdiv']
    · show st.buf_used + 2 * t = 2 * ((c + t) % m)
      rw [hused, hmod']
      omega
    · show (st.buf.take st.buf_used
        ++ convert_default (interleave ((input.drop c).take n))
        ++ st.buf.drop (st.buf_used + 2 * t)).length = BUF_LEN
      rw [List.length_append, List.length_append, hAlen, hconvlen,
        List.length_drop, hblen, hused]
      omega
    · show (st.buf.take st.buf_used
        ++ convert_default (interleave ((input.drop c).take n))
        ++ st.buf.drop (st.buf_used + 2 * t)).take (st.buf_used + 2 * t)
        = convert_default (interleave
            ((input.drop ((c + t) / m * m)).take ((c + t) % m)))
      have hlenAB : (st.buf.take st.buf_used
          ++ convert_default (interleave ((input.drop c).take n))).length
          = st.buf_used + 2 * t := by
        rw [List.length_append, hAlen, hconvlen]
      rw [hdiv', hmod', ← hlenAB, List.take_left, hstaged, hbatch, hsplit2,
        hdd, interleave_append, convert_default_append]
    · rw [hdiv']
      exact hcontents

/-- Any sequence of `work` calls preserves the production invariant: the
final state again satisfies it at the stream position reached, and the
leftover stream is exactly the unconsumed suffix. -/
theorem runCalls_inv (BUF_LEN : ℕ) (h2 : 2 ∣ BUF_LEN) (hpos : 0 < BUF_LEN)
    (st0 : BridgeState) (input : List (ℚ × ℚ)) (k : ℕ)
    (hlen : input.length = k * (BUF_LEN / 2))
    (hcap : st0.cbuf.count + k ≤ st0.cbuf.capacity) :
    ∀ (ns : List ℕ) (c : ℕ) (st : BridgeState),
    ProdInv BUF_LEN st0 input c st →
    c ≤ input.length →
    ∃ c', c' ≤ input.length ∧
      (runCalls BUF_LEN st (input.drop c) ns).2 = input.drop c' ∧
      ProdInv BUF_LEN st0 input c' (runCalls BUF_LEN st (input.drop c) ns).1 := by
  intro ns
  induction ns with
  | nil =>
    intro c st hinv hc
    exact ⟨c, hc, rfl, hinv⟩
  | cons n ns ih =>
    intro c st hinv hc
    have hmpos : 0 < BUF_LEN / 2 := by omega
    have hroom : BUF_LEN / 2 - c % (BUF_LEN / 2) ≤ min n (input.length - c) →
        st.cbuf.count < st.cbuf.capacity := by
      intro hp
      have h1 : 1 ≤ BUF_LEN / 2 - c % (BUF_LEN / 2) := by
        have := Nat.mod_lt c hmpos
        omega
      have hclt : c < input.length := by omega
      have hqlt : c / (BUF_LEN / 2) < k := by
        rw [Nat.div_lt_iff_lt_mul hmpos]
        omega
      rw [hinv.cnt, hinv.cap]
      omega
    obtain ⟨h1, h2'⟩ := work_step_inv BUF_LEN h2 hpos st0 input c st n hinv hc hroom
    have hstep : runCalls BUF_LEN st (input.drop c) (n :: ns)
        = runCalls BUF_LEN (work BUF_LEN st ((input.drop c).take n)).2
            ((input.drop c).drop (work BUF_LEN st ((input.drop c).take n)).1) ns :=
      rfl
    set d := min (min n (input.length - c)) (BUF_LEN / 2 - c % (BUF_LEN / 2)) with hd
    have hdle : d ≤ input.length - c := by omega
    have hstream : (input.drop c).drop (work BUF_LEN st ((input.drop c).take n)).1
        = input.drop (c + d) := by
      rw [h1, List.drop_drop]
    rw [hstep, hstream]
    exact ih (c + d) _ h2' (by omega)

/-! ### Rounding and conversion lemmas -/

theorem roundEven_intCast (n : ℤ) : roundEven (n : ℚ) = n := by
  rw [roundEven, Int.floor_intCast, if_pos (by norm_num)]

theorem qtrunc_intCast (n : ℤ) : qtrunc (n : ℚ) = n := by
  rw [qtrunc]
  by_cases h : (0:ℚ) ≤ (n:ℚ)
  · rw [if_pos h, Int.floor_intCast]
  · rw [if_neg h, ← Int.cast_neg, Int.floor_intCast, neg_neg]

theorem sat_eq_of_mem (lo hi z : ℤ) (h1 : lo ≤ z) (h2 : z ≤ hi) :
    sat lo hi z = z := by
  rw [sat, min_eq_right h2, max_eq_right h1]

/-- On a sample whose scaled value is exactly an integer in `[-127, 127]`,
the vectorized element conversion (round-to-nearest-even plus saturating
packs) and the scalar element conversion (truncation) coincide. -/
theorem vecElem_eq_defaultElem (x : ℚ) (n : ℤ) (hn : (n:ℚ) = x * 127)
    (h1 : -127 ≤ n) (h2 : n ≤ 127) : vecElem x = defaultElem x := by
  rw [vecElem, defaultElem, ← hn, roundEven_intCast, qtrunc_intCast,
    sat_eq_of_mem (-32768) 32767 n (by omega) (by omega),
    sat_eq_of_mem (-128) 127 n (by omega) (by omega)]

theorem qtrunc_bounds (q : ℚ) (h1 : -127 ≤ q) (h2 : q ≤ 127) :
    -127 ≤ qtrunc q ∧ qtrunc q ≤ 127 := by
  rw [qtrunc]
  by_cases h : 0 ≤ q
  · rw [if_pos h]
    constructor
    · have := Int.floor_nonneg.mpr h
      omega
    · have := Int.floor_le_floor h2
      simpa using this
  · rw [if_neg h]
    have hq : (0:ℚ) ≤ -q := by linarith
    have ha := Int.floor_nonneg.mpr hq
    have hb : ⌊-q⌋ ≤ 127 := by
      have : -q ≤ 127 := by linarith
      have := Int.floor_le_floor this
      simpa using this
    omega

theorem convert_interleave_getD :
    ∀ (samples : List (ℚ × ℚ)) (i : ℕ), i < samples.length →
    (convert_default (interleave samples)).getD (2*i) 0
        = defaultElem (samples.getD i ((0:ℚ), (0:ℚ))).1 ∧
    (convert_default (interleave samples)).getD (2*i+1) 0
        = defaultElem (samples.getD i ((0:ℚ), (0:ℚ))).2 := by
  intro samples
  induction samples with
  | nil => intro i h; simp at h
  | cons p rest ih =>
    intro i h
    have hc : convert_default (interleave (p :: rest))
        = defaultElem p.1 :: defaultElem p.2 :: convert_default (interleave rest) := by
      simp [interleave, convert_default]
    cases i with
    | zero => rw [hc]; exact ⟨rfl, rfl⟩
    | succ j =>
      have e1 : 2 * (j+1) = (2*j+1) + 1 := by ring
      have e2 : 2 * (j+1) + 1 = ((2*j+1) + 1) + 1 := by ring
      have hj : j < rest.length := by simpa using h
      constructor
      · rw [hc, e1]
        simp only [List.getD_cons_succ]
        exact (ih j hj).1
      · rw [hc, e2]
        simp only [List.getD_cons_succ]
        exact (ih j hj).2

theorem mem_interleave (x : ℚ) (l : List (ℚ × ℚ)) (hx : x ∈ interleave l) :
    ∃ p ∈ l, x = p.1 ∨ x = p.2 := by
  rw [interleave, List.mem_flatMap] at hx
  obtain ⟨p, hp, hmem⟩ := hx
  exact ⟨p, hp, by simpa using hmem⟩

/-! ### Claim C1 -/

/-- C1, counterexample: at the sample value 1/2 (inside the nominal range
`[-1, 1]`) the vectorized paths produce the byte 64 (the scaled value 63.5 is
rounded to nearest-even by `cvtps_epi32`) while the scalar path produces 63
(the C cast truncates toward zero), so the paths are not byte-identical. -/
theorem convert_paths_differ_at_half :
    -1 ≤ (1:ℚ)/2 ∧ (1:ℚ)/2 ≤ 1 ∧
    convert_avx [(1:ℚ)/2] ≠ convert_default [(1:ℚ)/2] ∧
    convert_sse2 [(1:ℚ)/2] ≠ convert_default [(1:ℚ)/2] ∧
    convert_avx [(1:ℚ)/2] = [64] ∧ convert_default [(1:ℚ)/2] = [63] := by
  have hfl : ⌊(1:ℚ)/2 * 127⌋ = 63 := by norm_num
  have hre : roundEven ((1:ℚ)/2 * 127) = 64 := by
    rw [roundEven, hfl, if_neg (by push_cast; norm_num),
      if_neg (by push_cast; norm_num), if_neg (by decide)]
    norm_num
  have hv : vecElem ((1:ℚ)/2) = 64 := by
    rw [vecElem, hre]
    decide
  have hd : defaultElem ((1:ℚ)/2) = 63 := by
    rw [defaultElem, qtrunc, if_pos (by norm_num)]
    exact hfl
  refine ⟨by norm_num, by norm_num, ?_, ?_, ?_, ?_⟩
  · simp only [convert_avx, convert_default, List.map_cons, List.map_nil, hv, hd]
    decide
  · simp only [convert_sse2, convert_default, List.map_cons, List.map_nil, hv, hd]
    decide
  · simp only [convert_avx, List.map_cons, List.map_nil, hv]
  · simp only [convert_default, List.map_cons, List.map_nil, hd]

/-- C1 (amended): on every input sample whose scaled value `x*127` is exactly
an integer (for `x ∈ [-1,1]` it then lies in `[-127,127]`), the vectorized
paths (AVX and SSE2) and the scalar path produce identical output bytes, and
for every split point, converting a prefix with the vectorized path and the
remainder with the scalar path equals converting everything with the scalar
path.  On other samples the paths may differ by one count: the scalar cast
truncates toward zero while the vector conversion rounds to nearest-even
(counterexample at `x = 1/2`). -/
theorem convert_paths_agree_on_integral_scaled (l : List ℚ)
    (h : ∀ x ∈ l, -1 ≤ x ∧ x ≤ 1 ∧ ∃ n : ℤ, (n:ℚ) = x * 127) :
    convert_avx l = convert_default l ∧
    convert_sse2 l = convert_default l ∧
    ∀ k : ℕ, convert_avx (l.take k) ++ convert_default (l.drop k)
      = convert_default l := by
  have hmain : ∀ x ∈ l, vecElem x = defaultElem x := by
    intro x hx
    obtain ⟨hx1, hx2, n, hn⟩ := h x hx
    apply vecElem_eq_defaultElem x n hn
    · have hc : (-127 : ℚ) ≤ (n:ℚ) := by rw [hn]; linarith
      exact_mod_cast hc
    · have hc : (n:ℚ) ≤ 127 := by rw [hn]; linarith
      exact_mod_cast hc
  refine ⟨List.map_congr_left hmain, List.map_congr_left hmain, ?_⟩
  intro k
  have h1 : convert_avx (l.take k) = convert_default (l.take k) :=
    List.map_congr_left (fun x hx => hmain x (List.take_subset k l hx))
  rw [h1]
  unfold convert_default
  rw [← List.map_append, List.take_append_drop]

/-- Witness for C1 (amended) at the concrete sample list `[1, 0, -1]`. -/
theorem convert_paths_agree_witness :
    (∀ x ∈ [(1:ℚ), 0, -1], -1 ≤ x ∧ x ≤ 1 ∧ ∃ n : ℤ, (n:ℚ) = x * 127) ∧
    (convert_avx [(1:ℚ), 0, -1] = convert_default [(1:ℚ), 0, -1] ∧
     convert_sse2 [(1:ℚ), 0, -1] = convert_default [(1:ℚ), 0, -1] ∧
     ∀ k : ℕ, convert_avx (([(1:ℚ), 0, -1]).take k)
         ++ convert_default (([(1:ℚ), 0, -1]).drop k)
       = convert_default [(1:ℚ), 0, -1]) := by
  have hhyp : ∀ x ∈ [(1:ℚ), 0, -1], -1 ≤ x ∧ x ≤ 1 ∧ ∃ n : ℤ, (n:ℚ) = x * 127 := by
    intro x hx
    simp only [List.mem_cons, List.not_mem_nil, or_false] at hx
    rcases hx with rfl | rfl | rfl
    · exact ⟨by norm_num, by norm_num, 127, by norm_num⟩
    · exact ⟨by norm_num, by norm_num, 0, by norm_num⟩
    · exact ⟨by norm_num, by norm_num, -127, by push_cast; norm_num⟩
  exact ⟨hhyp, convert_paths_agree_on_integral_scaled _ hhyp⟩

/-! ### Claim C2 -/

/-- C2: for every batch of complex samples with components in `[-1, 1]`, the
sample converter produces exactly `2 * count` integers, interleaved
real, imag, real, imag, ..., each equal to `round_toward_zero(component * 127)`
and lying within the signed 8-bit range `[-127, 127]`. -/
theorem convert_default_layout_spec (samples : List (ℚ × ℚ))
    (h : ∀ p ∈ samples, -1 ≤ p.1 ∧ p.1 ≤ 1 ∧ -1 ≤ p.2 ∧ p.2 ≤ 1) :
    (convert_default (interleave samples)).length = 2 * samples.length ∧
    (∀ i, i < samples.length →
      (convert_default (interleave samples)).getD (2*i) 0
        = qtrunc ((samples.getD i ((0:ℚ),(0:ℚ))).1 * 127) ∧
      (convert_default (interleave samples)).getD (2*i+1) 0
        = qtrunc ((samples.getD i ((0:ℚ),(0:ℚ))).2 * 127)) ∧
    (∀ b ∈ convert_default (interleave samples), -127 ≤ b ∧ b ≤ 127) := by
  refine ⟨?_, ?_, ?_⟩
  · rw [convert_default_length, interleave_length]
  · intro i hi
    have hgd := convert_interleave_getD samples i hi
    simpa [defaultElem] using hgd
  · intro b hb
    rw [convert_default, List.mem_map] at hb
    obtain ⟨x, hx, rfl⟩ := hb
    obtain ⟨p, hp, hxp⟩ := mem_interleave x samples hx
    obtain ⟨h1, h2, h3, h4⟩ := h p hp
    rw [defaultElem]
    rcases hxp with rfl | rfl
    · exact qtrunc_bounds _ (by linarith) (by linarith)
    · exact qtrunc_bounds _ (by linarith) (by linarith)

/-- Witness for C2 at the concrete batch `[(1, -1), (0, 1/2)]`. -/
theorem convert_default_layout_witness :
    (∀ p ∈ [((1:ℚ), (-1:ℚ)), (0, 1/2)], -1 ≤ p.1 ∧ p.1 ≤ 1 ∧ -1 ≤ p.2 ∧ p.2 ≤ 1) ∧
    ((convert_default (interleave [((1:ℚ), (-1:ℚ)), (0, 1/2)])).length
        = 2 * ([((1:ℚ), (-1:ℚ)), (0, 1/2)]).length ∧
     (∀ i, i < ([((1:ℚ), (-1:ℚ)), (0, 1/2)]).length →
       (convert_default (interleave [((1:ℚ), (-1:ℚ)), (0, 1/2)])).getD (2*i) 0
         = qtrunc ((([((1:ℚ), (-1:ℚ)), (0, 1/2)]).getD i ((0:ℚ),(0:ℚ))).1 * 127) ∧
       (convert_default (interleave [((1:ℚ), (-1:ℚ)), (0, 1/2)])).getD (2*i+1) 0
         = qtrunc ((([((1:ℚ), (-1:ℚ)), (0, 1/2)]).getD i ((0:ℚ),(0:ℚ))).2 * 127)) ∧
     (∀ b ∈ convert_default (interleave [((1:ℚ), (-1:ℚ)), (0, 1/2)]),
       -127 ≤ b ∧ b ≤ 127)) := by
  have hhyp : ∀ p ∈ [((1:ℚ), (-1:ℚ)), (0, 1/2)],
      -1 ≤ p.1 ∧ p.1 ≤ 1 ∧ -1 ≤ p.2 ∧ p.2 ≤ 1 := by
    intro p hp
    simp only [List.mem_cons, List.not_mem_nil, or_false] at hp
    rcases hp with rfl | rfl <;> exact ⟨by norm_num, by norm_num, by norm_num, by norm_num⟩
  exact ⟨hhyp, convert_default_layout_spec _ hhyp⟩

/-! ### Claim C3 -/

/-- C3: a `work` call offered `n` samples with `b` bytes staged (`b` even and
below the buffer length, as the bridge maintains; ring not full, as the
preceding wait establishes) consumes and reports exactly
`min n ((BUF_LEN - b) / 2)` samples; in particular a call with zero samples
consumes 0 and changes nothing at all. -/
theorem work_consumes_min_spec (BUF_LEN : ℕ) (st : BridgeState)
    (input : List (ℚ × ℚ))
    (hroom : st.cbuf.count < st.cbuf.capacity)
    (hlt : st.buf_used < BUF_LEN)
    (hev : 2 ∣ st.buf_used) (hbl : 2 ∣ BUF_LEN) :
    (work BUF_LEN st input).1 = min input.length ((BUF_LEN - st.buf_used) / 2) ∧
    (input = [] → work BUF_LEN st input = (0, st)) := by
  constructor
  · by_cases hc : (BUF_LEN - st.buf_used) / 2 ≤ input.length
    · rw [work_eq_push BUF_LEN st input hc hroom, Nat.min_eq_right hc]
    · have hlt2 : input.length < (BUF_LEN - st.buf_used) / 2 := Nat.lt_of_not_le hc
      rw [work_eq_no_push BUF_LEN st input hlt2,
        Nat.min_eq_left (Nat.le_of_lt hlt2)]
  · intro hnil
    subst hnil
    have hpos : 0 < (BUF_LEN - st.buf_used) / 2 := by omega
    rw [work_eq_no_push BUF_LEN st [] (by simpa using hpos)]
    simp [interleave, convert_default]

/-- Witness for C3 at a concrete bridge state and batch. -/
theorem work_consumes_min_witness :
    ((cb_init 3 4).count < (cb_init 3 4).capacity ∧ 2 < 4 ∧ (2:ℕ) ∣ 2 ∧ (2:ℕ) ∣ 4) ∧
    (work 4 ⟨cb_init 3 4, [7, 7, 0, 0], 2, false⟩ [((0:ℚ), (0:ℚ)), ((0:ℚ), (0:ℚ))]).1
      = min ([((0:ℚ), (0:ℚ)), ((0:ℚ), (0:ℚ))]).length ((4 - 2) / 2) ∧
    ([((0:ℚ), (0:ℚ)), ((0:ℚ), (0:ℚ))] = ([] : List (ℚ × ℚ)) →
      work 4 ⟨cb_init 3 4, [7, 7, 0, 0], 2, false⟩ [((0:ℚ), (0:ℚ)), ((0:ℚ), (0:ℚ))]
        = (0, ⟨cb_init 3 4, [7, 7, 0, 0], 2, false⟩)) :=
  ⟨⟨by decide, by decide, by decide, by decide⟩,
    work_consumes_min_spec 4 ⟨cb_init 3 4, [7, 7, 0, 0], 2, false⟩
      [((0:ℚ), (0:ℚ)), ((0:ℚ), (0:ℚ))] (by decide) (by decide) (by decide) (by decide)⟩

/-! ### Claim C4 -/

/-- C4: if the push inside `work` is attempted (the batch at least fills the
staging buffer) and fails (ring full), the call consumes 0 samples, reports
0, and is observationally a no-op: the ring, the fill counter, the stopping
flag, and the meaningful prefix of the staging buffer (the bytes below the
fill counter) are all unchanged, so the caller can retry with the same
input. -/
theorem work_push_fail_noop (BUF_LEN : ℕ) (st : BridgeState)
    (input : List (ℚ × ℚ))
    (hfull : st.cbuf.count = st.cbuf.capacity)
    (hge : (BUF_LEN - st.buf_used) / 2 ≤ input.length)
    (hbu : st.buf_used ≤ st.buf.length) :
    (work BUF_LEN st input).1 = 0 ∧
    (work BUF_LEN st input).2.cbuf = st.cbuf ∧
    (work BUF_LEN st input).2.buf_used = st.buf_used ∧
    (work BUF_LEN st input).2.stopping = st.stopping ∧
    (work BUF_LEN st input).2.buf.take st.buf_used = st.buf.take st.buf_used := by
  rw [work_eq_push_fail BUF_LEN st input hge hfull]
  refine ⟨rfl, rfl, rfl, rfl, ?_⟩
  have haux : ∀ (A B : List ℤ) (n : ℕ), A.length = n → (A ++ B).take n = A := by
    intro A B n hn
    rw [← hn, List.take_left]
  rw [List.append_assoc]
  exact haux _ _ _ (by rw [List.length_take, Nat.min_eq_left hbu])

/-- Witness for C4 at a concrete full ring. -/
theorem work_push_fail_witness :
    ((cb_push_back (cb_init 1 4) [1, 2, 3, 4]).2.count
        = (cb_push_back (cb_init 1 4) [1, 2, 3, 4]).2.capacity ∧
     (4 - 2) / 2 ≤ ([((1:ℚ), (1:ℚ))]).length ∧ 2 ≤ ([9, 9, 0, 0] : List ℤ).length) ∧
    ((work 4 ⟨(cb_push_back (cb_init 1 4) [1, 2, 3, 4]).2, [9, 9, 0, 0], 2, false⟩
        [((1:ℚ), (1:ℚ))]).1 = 0 ∧
     (work 4 ⟨(cb_push_back (cb_init 1 4) [1, 2, 3, 4]).2, [9, 9, 0, 0], 2, false⟩
        [((1:ℚ), (1:ℚ))]).2.cbuf = (cb_push_back (cb_init 1 4) [1, 2, 3, 4]).2 ∧
     (work 4 ⟨(cb_push_back (cb_init 1 4) [1, 2, 3, 4]).2, [9, 9, 0, 0], 2, false⟩
        [((1:ℚ), (1:ℚ))]).2.buf_used = 2 ∧
     (work 4 ⟨(cb_push_back (cb_init 1 4) [1, 2, 3, 4]).2, [9, 9, 0, 0], 2, false⟩
        [((1:ℚ), (1:ℚ))]).2.stopping = false ∧
     (work 4 ⟨(cb_push_back (cb_init 1 4) [1, 2, 3, 4]).2, [9, 9, 0, 0], 2, false⟩
        [((1:ℚ), (1:ℚ))]).2.buf.take 2 = ([9, 9, 0, 0] : List ℤ).take 2) :=
  ⟨⟨by decide, by decide, by decide⟩,
    work_push_fail_noop 4 ⟨(cb_push_back (cb_init 1 4) [1, 2, 3, 4]).2, [9, 9, 0, 0], 2, false⟩
      [((1:ℚ), (1:ℚ))] (by decide) (by decide) (by decide)⟩

/-! ### Claim C6 -/

/-- C6: when the TX callback finds the ring empty it zero-fills the transfer
buffer; if the bridge is not stopping it emits the underrun diagnostic,
returns the continue status 0 and leaves all shared state unchanged; if the
bridge is stopping it notifies the waiting thread and returns the terminal
status -1, again leaving the state unchanged. -/
theorem callback_empty_ring_spec (st : BridgeState) (buffer : List ℤ)
    (length : ℕ)
    (hempty : st.cbuf.count = 0) (hlen : buffer.length = length) :
    (st.stopping = false →
      (hackrf_tx_callback st buffer length).out = List.replicate length 0 ∧
      (hackrf_tx_callback st buffer length).ret = 0 ∧
      (hackrf_tx_callback st buffer length).underrun = true ∧
      (hackrf_tx_callback st buffer length).notified = false ∧
      (hackrf_tx_callback st buffer length).st = st) ∧
    (st.stopping = true →
      (hackrf_tx_callback st buffer length).out = List.replicate length 0 ∧
      (hackrf_tx_callback st buffer length).ret = -1 ∧
      (hackrf_tx_callback st buffer length).notified = true ∧
      (hackrf_tx_callback st buffer length).st = st) := by
  have hcb := cb_pop_front_empty st.cbuf buffer hempty
  have hdrop : buffer.drop length = [] := List.drop_eq_nil_of_le (le_of_eq hlen)
  constructor <;> intro hs <;>
    simp [hackrf_tx_callback, hcb, hs, hdrop]

/-- Witness for C6 at a concrete empty ring in both modes. -/
theorem callback_empty_ring_witness :
    ((cb_init 2 3).count = 0 ∧ ([5, 5, 5] : List ℤ).length = 3) ∧
    ((⟨cb_init 2 3, [0, 0, 0], 0, false⟩ : BridgeState).stopping = false →
      (hackrf_tx_callback ⟨cb_init 2 3, [0, 0, 0], 0, false⟩ [5, 5, 5] 3).out
        = List.replicate 3 0 ∧
      (hackrf_tx_callback ⟨cb_init 2 3, [0, 0, 0], 0, false⟩ [5, 5, 5] 3).ret = 0 ∧
      (hackrf_tx_callback ⟨cb_init 2 3, [0, 0, 0], 0, false⟩ [5, 5, 5] 3).underrun = true ∧
      (hackrf_tx_callback ⟨cb_init 2 3, [0, 0, 0], 0, false⟩ [5, 5, 5] 3).notified = false ∧
      (hackrf_tx_callback ⟨cb_init 2 3, [0, 0, 0], 0, false⟩ [5, 5, 5] 3).st
        = ⟨cb_init 2 3, [0, 0, 0], 0, false⟩) ∧
    ((⟨cb_init 2 3, [0, 0, 0], 0, false⟩ : BridgeState).stopping = true →
      (hackrf_tx_callback ⟨cb_init 2 3, [0, 0, 0], 0, false⟩ [5, 5, 5] 3).out
        = List.replicate 3 0 ∧
      (hackrf_tx_callback ⟨cb_init 2 3, [0, 0, 0], 0, false⟩ [5, 5, 5] 3).ret = -1 ∧
      (hackrf_tx_callback ⟨cb_init 2 3, [0, 0, 0], 0, false⟩ [5, 5, 5] 3).notified = true ∧
      (hackrf_tx_callback ⟨cb_init 2 3, [0, 0, 0], 0, false⟩ [5, 5, 5] 3).st
        = ⟨cb_init 2 3, [0, 0, 0], 0, false⟩) := by
  refine ⟨⟨by decide, by decide⟩, ?_, ?_⟩
  · exact (callback_empty_ring_spec ⟨cb_init 2 3, [0, 0, 0], 0, false⟩ [5, 5, 5] 3
      (by decide) (by decide)).1
  · exact (callback_empty_ring_spec ⟨cb_init 2 3, [0, 0, 0], 0, false⟩ [5, 5, 5] 3
      (by decide) (by decide)).2

/-! ### Claim C8 -/

/-- C8: pushing onto a full ring fails and leaves occupancy, head, tail and
stored contents unchanged (the whole buffer value is returned untouched);
popping an empty ring fails and leaves both the ring and the destination
untouched. -/
theorem cb_boundary_spec (cb : circular_buffer_t) (item dest : List ℤ) :
    (cb.count = cb.capacity → cb_push_back cb item = (false, cb)) ∧
    (cb.count = 0 → cb_pop_front cb dest = (false, cb, dest)) :=
  ⟨cb_push_back_full cb item, cb_pop_front_empty cb dest⟩

/-- Witness for C8 at a concrete full ring and a concrete empty ring. -/
theorem cb_boundary_witness :
    ((cb_push_back (cb_init 1 2) [7, 8]).2.count
        = (cb_push_back (cb_init 1 2) [7, 8]).2.capacity ∧
      cb_push_back (cb_push_back (cb_init 1 2) [7, 8]).2 [9, 9]
        = (false, (cb_push_back (cb_init 1 2) [7, 8]).2)) ∧
    ((cb_init 1 2).count = 0 ∧
      cb_pop_front (cb_init 1 2) [1, 2] = (false, cb_init 1 2, [1, 2])) :=
  ⟨⟨by decide, (cb_boundary_spec (cb_push_back (cb_init 1 2) [7, 8]).2 [9, 9] []).1 (by decide)⟩,
   ⟨by decide, (cb_boundary_spec (cb_init 1 2) [] [1, 2]).2 (by decide)⟩⟩

/-! ### Claim C5 -/

/-- C5: with a device attached (and room for the 6 pushes, which the
wait-for-room loops otherwise provide), `stop()` zero-pads the partially
filled staging buffer to full length and pushes it, then pushes exactly 5
all-silence buffers, raises the stopping flag, and leaves the fill counter
at 0; the ring then holds the previously queued buffers, the padded buffer,
and the 5 silence buffers, in that order. -/
theorem stop_flush_spec (BUF_LEN : ℕ) (st : BridgeState)
    (hwf : cb_wf st.cbuf) (hsz : st.cbuf.sz = BUF_LEN)
    (hblen : st.buf.length = BUF_LEN) (hbu : st.buf_used ≤ BUF_LEN)
    (hroom : st.cbuf.count + 6 ≤ st.cbuf.capacity) :
    stop BUF_LEN true st = some (stopBody BUF_LEN st) ∧
    (stopBody BUF_LEN st).buf_used = 0 ∧
    (stopBody BUF_LEN st).stopping = true ∧
    cb_contents (stopBody BUF_LEN st).cbuf
      = cb_contents st.cbuf
        ++ [st.buf.take st.buf_used ++ List.replicate (BUF_LEN - st.buf_used) 0]
        ++ List.replicate 5 (List.replicate BUF_LEN 0) := by
  refine ⟨rfl, rfl, rfl, ?_⟩
  have hpadlen : (st.buf.take st.buf_used
      ++ List.replicate (BUF_LEN - st.buf_used) (0:ℤ)).length = BUF_LEN := by
    rw [List.length_append, List.length_take, List.length_replicate,
      Nat.min_eq_left (hblen ▸ hbu)]
    omega
  obtain ⟨p1, p2, p3, p4, p5, p6, p7⟩ :=
    cb_push_back_spec st.cbuf
      (st.buf.take st.buf_used ++ List.replicate (BUF_LEN - st.buf_used) 0)
      hwf (by omega)
  have hpad_take : (st.buf.take st.buf_used
      ++ List.replicate (BUF_LEN - st.buf_used) (0:ℤ)).take st.cbuf.sz
      = st.buf.take st.buf_used ++ List.replicate (BUF_LEN - st.buf_used) 0 :=
    List.take_of_length_le (by rw [hpadlen, hsz])
  obtain ⟨q1, q2, q3, q4, q5⟩ :=
    pushN_spec (List.replicate BUF_LEN 0) 5
      (cb_push_back st.cbuf
        (st.buf.take st.buf_used ++ List.replicate (BUF_LEN - st.buf_used) 0)).2
      p2 (by rw [p5, p3]; omega)
  have hsil : (List.replicate BUF_LEN (0:ℤ)).take
      (cb_push_back st.cbuf
        (st.buf.take st.buf_used ++ List.replicate (BUF_LEN - st.buf_used) 0)).2.sz
      = List.replicate BUF_LEN 0 :=
    List.take_of_length_le (by rw [List.length_replicate, p4, hsz])
  show cb_contents (pushN
      (cb_push_back st.cbuf
        (st.buf.take st.buf_used ++ List.replicate (BUF_LEN - st.buf_used) 0)).2
      (List.replicate BUF_LEN 0) 5) = _
  rw [q5, hsil, p7, hpad_take, List.append_assoc]

/-- Witness for C5 at a concrete half-filled bridge. -/
theorem stop_flush_witness :
    (cb_wf (cb_init 6 2) ∧ (cb_init 6 2).sz = 2 ∧ ([9, 9] : List ℤ).length = 2 ∧
      1 ≤ 2 ∧ (cb_init 6 2).count + 6 ≤ (cb_init 6 2).capacity) ∧
    (stop 2 true ⟨cb_init 6 2, [9, 9], 1, false⟩
        = some (stopBody 2 ⟨cb_init 6 2, [9, 9], 1, false⟩) ∧
     (stopBody 2 ⟨cb_init 6 2, [9, 9], 1, false⟩).buf_used = 0 ∧
     (stopBody 2 ⟨cb_init 6 2, [9, 9], 1, false⟩).stopping = true ∧
     cb_contents (stopBody 2 ⟨cb_init 6 2, [9, 9], 1, false⟩).cbuf
       = cb_contents (cb_init 6 2)
         ++ [([9, 9] : List ℤ).take 1 ++ List.replicate (2 - 1) 0]
         ++ List.replicate 5 (List.replicate 2 0)) :=
  ⟨⟨by decide, by decide, by decide, by decide, by decide⟩,
    stop_flush_spec 2 ⟨cb_init 6 2, [9, 9], 1, false⟩
      (by decide) (by decide) (by decide) (by decide) (by decide)⟩

/-! ### Claim C7 -/

/-- C7: for every sequence of produce calls — arbitrary batch sizes `ns`,
driven over a sample stream of exactly `k` full buffers' worth — that
consumes the whole stream, exactly `k` full buffers are pushed into the
ring; they sit behind the previously queued buffers in submission order, pop
back out in that same FIFO order when drained, and each is byte-identical to
the scalar conversion of its span of the input stream. -/
theorem produce_full_buffers_fifo (BUF_LEN k : ℕ) (st : BridgeState)
    (input : List (ℚ × ℚ)) (ns : List ℕ)
    (h2 : 2 ∣ BUF_LEN) (hpos : 0 < BUF_LEN)
    (hwf : cb_wf st.cbuf) (hsz : st.cbuf.sz = BUF_LEN)
    (hblen : st.buf.length = BUF_LEN) (hbu : st.buf_used = 0)
    (hlen : input.length = k * (BUF_LEN / 2))
    (hcap : st.cbuf.count + k ≤ st.cbuf.capacity)
    (hall : (runCalls BUF_LEN st input ns).2 = []) :
    (runCalls BUF_LEN st input ns).1.cbuf.count = st.cbuf.count + k ∧
    cb_contents (runCalls BUF_LEN st input ns).1.cbuf
      = cb_contents st.cbuf ++ (List.range k).map (chunkBytes BUF_LEN input) ∧
    cb_drain (runCalls BUF_LEN st input ns).1.cbuf
      = cb_contents st.cbuf ++ (List.range k).map (chunkBytes BUF_LEN input) ∧
    (runCalls BUF_LEN st input ns).1.buf_used = 0 := by
  have hinv0 : ProdInv BUF_LEN st input 0 st := by
    refine ⟨hwf, rfl, hsz, ?_, ?_, hblen, rfl, ?_, ?_⟩
    · rw [Nat.zero_div, Nat.add_zero]
    · rw [hbu, Nat.zero_mod]
    · rw [hbu]
      simp [convert_default, interleave]
    · rw [Nat.zero_div]
      simp
  have h0 := runCalls_inv BUF_LEN h2 hpos st input k hlen hcap ns 0 st hinv0
    (Nat.zero_le _)
  rw [List.drop_zero] at h0
  obtain ⟨c', hc'le, hc'eq, hc'inv⟩ := h0
  have hc'full : c' = input.length := by
    have hnil : input.drop c' = [] := by rw [← hc'eq]; exact hall
    have := List.drop_eq_nil_iff.mp hnil
    omega
  subst hc'full
  have hmpos : 0 < BUF_LEN / 2 := by omega
  have hdiv : input.length / (BUF_LEN / 2) = k := by
    rw [hlen]; exact Nat.mul_div_cancel k hmpos
  have hmod : input.length % (BUF_LEN / 2) = 0 := by
    rw [hlen]; exact Nat.mul_mod_left k _
  obtain ⟨w1, w2, w3, w4, w5, w6, w7, w8, w9⟩ := hc'inv
  refine ⟨?_, ?_, ?_, ?_⟩
  · rw [w4, hdiv]
  · rw [w9, hdiv]
  · rw [cb_drain_eq_contents _ w1, w9, hdiv]
  · rw [w5, hmod]

/-- Witness for C7: one full buffer's worth of samples through a 4-byte
buffer ring, fed in two calls of batch sizes 1 and 5 (the first leaves a
partially filled staging buffer, the second completes and pushes it). -/
theorem produce_full_buffers_witness :
    ((2:ℕ) ∣ 4 ∧ 0 < 4 ∧ cb_wf (cb_init 1 4) ∧ (cb_init 1 4).sz = 4 ∧
      ([0, 0, 0, 0] : List ℤ).length = 4 ∧
      ([((0:ℚ), (0:ℚ)), ((0:ℚ), (0:ℚ))]).length = 1 * (4 / 2) ∧
      (cb_init 1 4).count + 1 ≤ (cb_init 1 4).capacity ∧
      (runCalls 4 ⟨cb_init 1 4, [0, 0, 0, 0], 0, false⟩
        [((0:ℚ), (0:ℚ)), ((0:ℚ), (0:ℚ))] [1, 5]).2 = []) ∧
    ((runCalls 4 ⟨cb_init 1 4, [0, 0, 0, 0], 0, false⟩
        [((0:ℚ), (0:ℚ)), ((0:ℚ), (0:ℚ))] [1, 5]).1.cbuf.count
        = (cb_init 1 4).count + 1 ∧
     cb_contents (runCalls 4 ⟨cb_init 1 4, [0, 0, 0, 0], 0, false⟩
        [((0:ℚ), (0:ℚ)), ((0:ℚ), (0:ℚ))] [1, 5]).1.cbuf
        = cb_contents (cb_init 1 4)
          ++ (List.range 1).map (chunkBytes 4 [((0:ℚ), (0:ℚ)), ((0:ℚ), (0:ℚ))]) ∧
     cb_drain (runCalls 4 ⟨cb_init 1 4, [0, 0, 0, 0], 0, false⟩
        [((0:ℚ), (0:ℚ)), ((0:ℚ), (0:ℚ))] [1, 5]).1.cbuf
        = cb_contents (cb_init 1 4)
          ++ (List.range 1).map (chunkBytes 4 [((0:ℚ), (0:ℚ)), ((0:ℚ), (0:ℚ))]) ∧
     (runCalls 4 ⟨cb_init 1 4, [0, 0, 0, 0], 0, false⟩
        [((0:ℚ), (0:ℚ)), ((0:ℚ), (0:ℚ))] [1, 5]).1.buf_used = 0) :=
  ⟨⟨by decide, by decide, by decide, by decide, by decide, rfl, by decide, rfl⟩,
    produce_full_buffers_fifo 4 1 ⟨cb_init 1 4, [0, 0, 0, 0], 0, false⟩
      [((0:ℚ), (0:ℚ)), ((0:ℚ), (0:ℚ))] [1, 5]
      (by decide) (by decide) (by decide) (by decide) (by decide) (by decide)
      rfl (by decide) rfl⟩

/-! ### Claim C9 -/

/-- C9, counterexample: with `buffers=4`, per-buffer length 1024 bytes and an
empty staging buffer, a single `produce` (`work`) call offering 2048 complex
samples pushes exactly ONE full buffer into the ring (not four): the call
consumes and returns only 512 samples — one staging buffer's worth — leaving
the remaining 1536 samples for later calls. -/
theorem scenario_single_call_counterexample :
    (work 1024 scenarioState (List.replicate 2048 ((0:ℚ), (0:ℚ)))).2.cbuf.count ≠ 4 ∧
    (work 1024 scenarioState (List.replicate 2048 ((0:ℚ), (0:ℚ)))).2.cbuf.count = 1 ∧
    (work 1024 scenarioState (List.replicate 2048 ((0:ℚ), (0:ℚ)))).1 = 512 ∧
    (work 1024 scenarioState (List.replicate 2048 ((0:ℚ), (0:ℚ)))).2.buf_used = 0 := by
  have hge : (1024 - scenarioState.buf_used) / 2
      ≤ (List.replicate 2048 ((0:ℚ), (0:ℚ))).length := by
    rw [List.length_replicate]
    decide
  have hroom : scenarioState.cbuf.count < scenarioState.cbuf.capacity := by decide
  rw [work_eq_push 1024 scenarioState _ hge hroom]
  have hcnt : ∀ item : List ℤ, (cb_push_back scenarioState.cbuf item).2.count = 1 := by
    intro item
    rw [cb_push_back, if_neg (by decide)]
    rfl
  exact ⟨by rw [hcnt]; decide, by rw [hcnt], by decide, rfl⟩

/-- C9 (amended): in the `buffers=4`, 1024-byte-buffer scenario with an empty
staging buffer, a single `produce` call offering 2048 complex samples
consumes and returns 512 samples, pushes exactly one full buffer and leaves
0 bytes pending; driving the call repeatedly until all 2048 samples are
consumed (as the scheduler does) pushes exactly 4 full buffers, in order,
byte-identical to the converted input, again with 0 bytes pending. -/
theorem scenario_2048_samples_spec (input : List (ℚ × ℚ))
    (hlen : input.length = 2048) :
    (work 1024 scenarioState input).1 = 512 ∧
    (work 1024 scenarioState input).2.cbuf.count = 1 ∧
    (work 1024 scenarioState input).2.buf_used = 0 ∧
    (produceAll 1024 scenarioState input).cbuf.count = 4 ∧
    (produceAll 1024 scenarioState input).buf_used = 0 ∧
    cb_contents (produceAll 1024 scenarioState input).cbuf
      = (List.range 4).map (chunkBytes 1024 input) := by
  have hge : (1024 - scenarioState.buf_used) / 2 ≤ input.length := by
    rw [hlen]
    decide
  have hroom : scenarioState.cbuf.count < scenarioState.cbuf.capacity := by decide
  obtain ⟨q1, q2, q3, q4, q5, q6, q7⟩ :=
    produceN_chunks 1024 (by norm_num) (by norm_num) 4 input.length scenarioState
      input (by decide) rfl (List.length_replicate 1024 0) rfl (by rw [hlen])
      (by decide) (le_refl _)
  have hcnt : ∀ item : List ℤ, (cb_push_back scenarioState.cbuf item).2.count = 1 := by
    intro item
    rw [cb_push_back, if_neg (by decide)]
    rfl
  refine ⟨?_, ?_, ?_, ?_, q5, ?_⟩
  · rw [work_eq_push 1024 scenarioState _ hge hroom]
    rfl
  · rw [work_eq_push 1024 scenarioState _ hge hroom, hcnt]
  · rw [work_eq_push 1024 scenarioState _ hge hroom]
  · show (produceN 1024 input.length scenarioState input).cbuf.count = 4
    rw [q4]
    decide
  · show cb_contents (produceN 1024 input.length scenarioState input).cbuf = _
    rw [q7]
    have hinit : cb_contents scenarioState.cbuf = [] := rfl
    rw [hinit, List.nil_append]

/-- Witness for C9 (amended) at the all-zero sample stream. -/
theorem scenario_2048_samples_witness :
    (List.replicate 2048 ((0:ℚ), (0:ℚ))).length = 2048 ∧
    ((work 1024 scenarioState (List.replicate 2048 ((0:ℚ), (0:ℚ)))).1 = 512 ∧
     (work 1024 scenarioState (List.replicate 2048 ((0:ℚ), (0:ℚ)))).2.cbuf.count = 1 ∧
     (work 1024 scenarioState (List.replicate 2048 ((0:ℚ), (0:ℚ)))).2.buf_used = 0 ∧
     (produceAll 1024 scenarioState (List.replicate 2048 ((0:ℚ), (0:ℚ)))).cbuf.count = 4 ∧
     (produceAll 1024 scenarioState (List.replicate 2048 ((0:ℚ), (0:ℚ)))).buf_used = 0 ∧
     cb_contents (produceAll 1024 scenarioState
         (List.replicate 2048 ((0:ℚ), (0:ℚ)))).cbuf
       = (List.range 4).map (chunkBytes 1024 (List.replicate 2048 ((0:ℚ), (0:ℚ))))) :=
  ⟨List.length_replicate 2048 ((0:ℚ), (0:ℚ)),
    scenario_2048_samples_spec (List.replicate 2048 ((0:ℚ), (0:ℚ)))
      (List.length_replicate 2048 ((0:ℚ), (0:ℚ)))⟩

/-! ### Claim C10 -/

/-- C10: every bridge operation preserves the staging-buffer invariant
`0 ≤ bytes_filled < buffer_capacity` (with the counter always a whole number
of samples and the buffer keeping its size): `work` under the wait's room
guarantee, the TX callback unconditionally, and `start`/`stop` by resetting
the counter; moreover whenever `work` completes the staging buffer (the
batch reaches the remaining room) the completed `BUF_LEN`-byte buffer is
pushed into the ring — the occupancy grows by one and the FIFO contents gain
exactly that buffer at the back — and the counter resets to 0. -/
theorem bridge_invariant_preserved (BUF_LEN : ℕ) (hbl : 2 ∣ BUF_LEN)
    (hpos : 0 < BUF_LEN) :
    (∀ st input, BridgeInv BUF_LEN st → st.cbuf.count < st.cbuf.capacity →
      BridgeInv BUF_LEN (work BUF_LEN st input).2) ∧
    (∀ st input, BridgeInv BUF_LEN st → cb_wf st.cbuf → st.cbuf.sz = BUF_LEN →
      st.cbuf.count < st.cbuf.capacity →
      (BUF_LEN - st.buf_used) / 2 ≤ input.length →
      (work BUF_LEN st input).2.buf_used = 0 ∧
      (work BUF_LEN st input).2.buf.length = BUF_LEN ∧
      (work BUF_LEN st input).2.cbuf.count = st.cbuf.count + 1 ∧
      cb_contents (work BUF_LEN st input).2.cbuf
        = cb_contents st.cbuf ++ [(work BUF_LEN st input).2.buf]) ∧
    (∀ st buffer length, BridgeInv BUF_LEN st →
      BridgeInv BUF_LEN (hackrf_tx_callback st buffer length).st) ∧
    (∀ st st', BridgeInv BUF_LEN st → start true st = some st' →
      BridgeInv BUF_LEN st') ∧
    (∀ st st', BridgeInv BUF_LEN st → stop BUF_LEN true st = some st' →
      BridgeInv BUF_LEN st') := by
  refine ⟨?_, ?_, ?_, ?_, ?_⟩
  · intro st input h hroom
    obtain ⟨h1, h2, h3⟩ := h
    by_cases hc : (BUF_LEN - st.buf_used) / 2 ≤ input.length
    · rw [work_eq_push BUF_LEN st input hc hroom]
      refine ⟨hpos, ⟨0, rfl⟩, ?_⟩
      show (st.buf.take st.buf_used
        ++ convert_default (interleave (input.take ((BUF_LEN - st.buf_used) / 2)))
        ++ st.buf.drop (st.buf_used + 2 * ((BUF_LEN - st.buf_used) / 2))).length = BUF_LEN
      rw [List.length_append, List.length_append, List.length_take,
        List.length_drop, convert_default_length, interleave_length,
        List.length_take, h3, Nat.min_eq_left (Nat.le_of_lt h1),
        Nat.min_eq_left hc]
      omega
    · have hlt2 : input.length < (BUF_LEN - st.buf_used) / 2 := Nat.lt_of_not_le hc
      rw [work_eq_no_push BUF_LEN st input hlt2]
      refine ⟨?_, ?_, ?_⟩
      · show st.buf_used + 2 * input.length < BUF_LEN
        omega
      · show 2 ∣ st.buf_used + 2 * input.length
        omega
      · show (st.buf.take st.buf_used
          ++ convert_default (interleave input)
          ++ st.buf.drop (st.buf_used + 2 * input.length)).length = BUF_LEN
        rw [List.length_append, List.length_append, List.length_take,
          List.length_drop, convert_default_length, interleave_length, h3,
          Nat.min_eq_left (Nat.le_of_lt h1)]
        omega
  · intro st input h hwf hsz hroom hc
    obtain ⟨h1, h2', h3⟩ := h
    have hw := work_eq_push BUF_LEN st input hc hroom
    set buf1 := st.buf.take st.buf_used
      ++ convert_default (interleave (input.take ((BUF_LEN - st.buf_used) / 2)))
      ++ st.buf.drop (st.buf_used + 2 * ((BUF_LEN - st.buf_used) / 2)) with hbuf1def
    have hlen1 : buf1.length = BUF_LEN := by
      rw [hbuf1def, List.length_append, List.length_append, List.length_take,
        List.length_drop, convert_default_length, interleave_length,
        List.length_take, h3, Nat.min_eq_left (Nat.le_of_lt h1),
        Nat.min_eq_left hc]
      omega
    obtain ⟨p1, p2, p3, p4, p5, p6, p7⟩ := cb_push_back_spec st.cbuf buf1 hwf hroom
    have htk : buf1.take st.cbuf.sz = buf1 :=
      List.take_of_length_le (by rw [hlen1, hsz])
    rw [htk] at p7
    rw [hw]
    exact ⟨rfl, hlen1, p5, p7⟩
  · intro st buffer length h
    simp only [hackrf_tx_callback]
    split
    · exact ⟨h.1, h.2.1, h.2.2⟩
    · split
      · exact h
      · exact h
  · intro st st' h heq
    have hs : start true st = some { st with stopping := false, buf_used := 0 } := rfl
    rw [hs] at heq
    obtain rfl := Option.some.inj heq
    exact ⟨hpos, ⟨0, rfl⟩, h.2.2⟩
  · intro st st' h heq
    have hs : stop BUF_LEN true st = some (stopBody BUF_LEN st) := rfl
    rw [hs] at heq
    obtain rfl := Option.some.inj heq
    exact ⟨hpos, ⟨0, rfl⟩, List.length_replicate BUF_LEN 0⟩

/-- Witness for C10 at `BUF_LEN = 2`. -/
theorem bridge_invariant_witness :
    ((2:ℕ) ∣ 2 ∧ 0 < 2) ∧
    ((∀ st input, BridgeInv 2 st → st.cbuf.count < st.cbuf.capacity →
        BridgeInv 2 (work 2 st input).2) ∧
     (∀ st input, BridgeInv 2 st → cb_wf st.cbuf → st.cbuf.sz = 2 →
        st.cbuf.count < st.cbuf.capacity →
        (2 - st.buf_used) / 2 ≤ input.length →
        (work 2 st input).2.buf_used = 0 ∧
        (work 2 st input).2.buf.length = 2 ∧
        (work 2 st input).2.cbuf.count = st.cbuf.count + 1 ∧
        cb_contents (work 2 st input).2.cbuf
          = cb_contents st.cbuf ++ [(work 2 st input).2.buf]) ∧
     (∀ st buffer length, BridgeInv 2 st →
        BridgeInv 2 (hackrf_tx_callback st buffer length).st) ∧
     (∀ st st', BridgeInv 2 st → start true st = some st' → BridgeInv 2 st') ∧
     (∀ st st', BridgeInv 2 st → stop 2 true st = some st' → BridgeInv 2 st')) :=
  ⟨⟨by decide, by decide⟩, bridge_invariant_preserved 2 (by decide) (by decide)⟩

end HackrfSink
